import Mathlib

/-!
# Verification of the bookeditor manuscript version-control and edit-session engine

Shallow embedding of the repository's selection resolution, diff display,
editor-session state and undo logic (from `web/src/components/ManuscriptViewer.tsx`,
`DiffViewer.tsx` and the BookEditor component), together with a model of the
backend version manager and edit-session apply taken from the specification
(the FastAPI backend is not part of the repository snapshot).

JavaScript strings are modelled as `List Char` (indices are code units; all
inputs considered here are ASCII).
-/

namespace BookEditor

/-- Whitespace test used by JavaScript `trim` and by word tokenization. -/
def isWs (c : Char) : Bool :=
  c = ' ' || c = '\t' || c = '\n' || c = '\r'

/-- JavaScript `String.prototype.trim`: strip leading and trailing whitespace. -/
def jsTrim (s : List Char) : List Char :=
  ((s.dropWhile isWs).reverse.dropWhile isWs).reverse

/-- Exact slice `content[a:b]` (no clamping applied by the caller): the code
units from index `a` (inclusive) to `b` (exclusive). -/
def slice (s : List Char) (a b : Nat) : List Char :=
  (s.take b).drop a

/-- JavaScript `String.prototype.substring(a, b)`: clamps both indices to
`[0, length]` and swaps them when `a > b`. -/
def jsSubstring (s : List Char) (a b : Nat) : List Char :=
  (s.take (max a b)).drop (min a b)

/-- JavaScript `String.prototype.indexOf(pat)`: index of the first occurrence
of `pat`, or `none` when absent (`-1` in JavaScript). -/
def strIndexOf (pat : List Char) : List Char → Option Nat
  | [] => if pat = [] then some 0 else none
  | c :: rest =>
    if pat.isPrefixOf (c :: rest) then some 0
    else (strIndexOf pat rest).map (· + 1)

/-- A resolved selection triple `(start, end, text)` as stored by the UI. -/
structure SelectionR where
  start : Nat
  stop : Nat
  text : List Char
  deriving DecidableEq, Repr

/-- `handleMouseUp` from `ManuscriptViewer.tsx` (offset-pair variant).
`startIndex` is the length of the rendered text preceding the selection;
`selText` is the raw selected text.  The function returns the triple passed
to `onTextSelection`, or `none` when no callback is invoked. -/
def handleMouseUp (content selText : List Char) (startIndex : Nat) : Option SelectionR :=
  if (jsTrim selText).length = 0 then none
  -- `endIndex` in the source is `startIndex + selectedText.length`;
  -- `startIndex >= 0` in the source is vacuous for `Nat`
  else if startIndex + selText.length ≤ content.length ∧
      startIndex < startIndex + selText.length then
    some ⟨startIndex, startIndex + selText.length, selText⟩
  else
    match strIndexOf (jsTrim selText) content with
    | some i => some ⟨i, i + (jsTrim selText).length, jsTrim selText⟩
    | none => none

/-- `handleMouseUp` from the search-only `ManuscriptViewer.tsx` variant:
trims the raw selection and locates it by `indexOf` in the content. -/
def handleMouseUpSearch (content rawText : List Char) : Option SelectionR :=
  -- `selectedText` in the source is `range.toString().trim()`
  if (jsTrim rawText).length = 0 then none
  else
    match strIndexOf (jsTrim rawText) content with
    | some i => some ⟨i, i + (jsTrim rawText).length, jsTrim rawText⟩
    | none => none

/-- `handleTextSelection` from the BookEditor component: re-validates a
reported triple against the current content and stores it (`some`) or
ignores it (`none`).  The source checks `start >= 0 && end > start &&
text.length > 0 && manuscriptContent?.content` and then that
`content.substring(start, end) === text`. -/
def handleTextSelection (content : List Char) (start stop : Nat) (text : List Char) :
    Option SelectionR :=
  if start < stop ∧ 0 < text.length ∧ content ≠ [] then
    if jsSubstring content start stop = text then some ⟨start, stop, text⟩ else none
  else none

/-- The selection pipeline as wired in the app: the viewer's `handleMouseUp`
feeds `onTextSelection`, which is the BookEditor's `handleTextSelection`. -/
def selectionPipeline (content selText : List Char) (startIndex : Nat) : Option SelectionR :=
  (handleMouseUp content selText startIndex).bind
    (fun s => handleTextSelection content s.start s.stop s.text)

/-- The same pipeline built on the search-only viewer variant. -/
def selectionPipelineSearch (content rawText : List Char) : Option SelectionR :=
  (handleMouseUpSearch content rawText).bind
    (fun s => handleTextSelection content s.start s.stop s.text)

/-! ## Diff display (`DiffViewer.tsx`) -/

/-- Output record of `computeSimpleDiff`: the text shown in the "Before"
column (styled as removed) and in the "After" column (styled as added). -/
structure SimpleDiff where
  removed : List Char
  added : List Char
  deriving DecidableEq, Repr

/-- `computeSimpleDiff` from `DiffViewer.tsx`: whole-string comparison only.
`removed = oldText !== newText ? oldText : ''` and
`added = oldText !== newText ? newText : oldText`. -/
def computeSimpleDiff (oldText newText : List Char) : SimpleDiff :=
  { removed := if oldText ≠ newText then oldText else []
    added := if oldText ≠ newText then newText else oldText }

/-- Operation of a diff hunk (`equal|insert|delete`). -/
inductive DiffOp where
  | equal
  | insert
  | delete
  deriving DecidableEq, Repr

/-- A diff hunk `{op, text}`. -/
structure DiffHunk where
  op : DiffOp
  text : List Char
  deriving DecidableEq, Repr

/-- Hunk reading of the viewer's output: the "Before" column renders
`removed` as deleted text and the "After" column renders `added` as inserted
text, i.e. one delete hunk followed by one insert hunk. -/
def hunksOf (d : SimpleDiff) : List DiffHunk :=
  [⟨.delete, d.removed⟩, ⟨.insert, d.added⟩]

/-- Forward application of a hunk sequence: concatenate the text of all
`equal` and `insert` hunks in order. -/
def applyForward (hs : List DiffHunk) : List Char :=
  (hs.filterMap (fun h => if h.op = .equal ∨ h.op = .insert then some h.text else none)).flatten

/-- Backward application of a hunk sequence: concatenate the text of all
`equal` and `delete` hunks in order. -/
def applyBackward (hs : List DiffHunk) : List Char :=
  (hs.filterMap (fun h => if h.op = .equal ∨ h.op = .delete then some h.text else none)).flatten

/-- Word-granularity tokenization as described by the specification: split at
whitespace boundaries, keeping maximal whitespace runs as their own tokens,
so that concatenating the tokens reproduces the input. -/
def tokenizeAux : List Char → List Char → List (List Char)
  | [], acc => if acc = [] then [] else [acc.reverse]
  | c :: rest, acc =>
    match acc with
    | [] => tokenizeAux rest [c]
    | a :: _ =>
      if isWs c = isWs a then tokenizeAux rest (c :: acc)
      else acc.reverse :: tokenizeAux rest [c]

/-- Word tokenizer (specification notion used to state minimality). -/
def tokenize (s : List Char) : List (List Char) :=
  tokenizeAux s []

/-- Length of a longest common subsequence of two token sequences
(fuel-indexed so the recursion is structural; the fuel is consumed at most
once per element of either list). -/
def lcsLenF : Nat → List (List Char) → List (List Char) → Nat
  | 0, _, _ => 0
  | _ + 1, [], _ => 0
  | _ + 1, _ :: _, [] => 0
  | fuel + 1, a :: as, b :: bs =>
    if a = b then lcsLenF fuel as bs + 1
    else max (lcsLenF fuel (a :: as) bs) (lcsLenF fuel as (b :: bs))

/-- Length of a longest common subsequence of two token sequences. -/
def lcsLen (xs ys : List (List Char)) : Nat :=
  lcsLenF (xs.length + ys.length) xs ys

/-- Edit cost of a hunk sequence at word granularity: the total number of
tokens inserted or deleted. -/
def hunkCost (hs : List DiffHunk) : Nat :=
  (hs.map (fun h => if h.op = .equal then 0 else (tokenize h.text).length)).sum

/-- The minimal word-granularity edit cost between two strings, as an
LCS-based alignment attains it: tokens not in the common subsequence are
deleted from one side and inserted on the other. -/
def minTokenCost (b a : List Char) : Nat :=
  (tokenize b).length + (tokenize a).length - 2 * lcsLen (tokenize b) (tokenize a)

/-! ## Editor session state (BookEditor component) -/

/-- Frontend edit option as delivered by `/edits/suggest`
(content fields reduced to the ones the session logic touches). -/
structure EditOptionF where
  option_id : Nat
  before : List Char
  after : List Char
  deriving DecidableEq, Repr

/-- The BookEditor component's session-relevant state:
`selection`, `editSessionId` and `editOptions`. -/
structure EditorState where
  selection : Option SelectionR
  editSessionId : Option Nat
  editOptions : List EditOptionF
  deriving DecidableEq, Repr

/-- Initial component state: no selection, no session, no options. -/
def initialEditorState : EditorState :=
  { selection := none, editSessionId := none, editOptions := [] }

/-- Events that mutate the session-relevant state in the source:
an `onTextSelection` callback (validated by `handleTextSelection`),
a successful or failed suggest mutation, and a successful or failed
apply mutation. -/
inductive EditorEvent where
  | textSelection (content : List Char) (start stop : Nat) (text : List Char)
  | suggestSuccess (sessionId : Nat) (options : List EditOptionF)
  | suggestError
  | applySuccess
  | applyError
  deriving Repr

/-- One step of the BookEditor state, following the source handlers:
`handleTextSelection` stores the validated selection and clears the previous
edit session and options; `suggestEditsMutation.onSuccess` installs the new
session id and options; `applyEditMutation.onSuccess` clears session,
options and selection; the error handlers only log. -/
def stepEditor (st : EditorState) : EditorEvent → EditorState
  | .textSelection content start stop text =>
    match handleTextSelection content start stop text with
    | some s => { st with selection := some s, editSessionId := none, editOptions := [] }
    | none => st
  | .suggestSuccess sessionId options =>
    { st with editSessionId := some sessionId, editOptions := options }
  | .suggestError => st
  | .applySuccess => { st with selection := none, editSessionId := none, editOptions := [] }
  | .applyError => st

/-- Run the component from its initial state over a list of events. -/
def runEditor (evs : List EditorEvent) : EditorState :=
  evs.foldl stepEditor initialEditorState

/-! ## Undo (`handleUndo` in the BookEditor component) -/

/-- One entry of the `/history` response, newest first. -/
structure HistEntry where
  vid : Nat
  deriving DecidableEq, Repr

/-- `handleUndo`: fetches the history (`versions`, newest first); if it has
fewer than two entries it alerts and returns; otherwise it asks for
confirmation and, when confirmed, issues one revert targeting
`versions[1]`.  The result is the id passed to `manuscriptApi.revert`, or
`none` when no revert call is made. -/
def handleUndo (versions : List HistEntry) (confirmed : Bool) : Option Nat :=
  if versions.length < 2 then none
  else
    match versions with
    | _ :: previousVersion :: _ => if confirmed then some previousVersion.vid else none
    | _ => none

/-! ## Version Manager model

The FastAPI backend implementing the Version Manager and the Edit Session
Manager is not part of the repository snapshot (only its HTTP client
`web/src/lib/api.ts` is), so the definitions below are modelled from the
specification. -/

/-- Modelled from the spec: a `Version` record — the backend's immutable
full-text snapshot `{id, manuscriptId, content, parentVersionId?}`
(single-manuscript store, so `manuscriptId` is dropped; `versionTag` and
`createdAt` are represented by creation order). -/
structure Version where
  vid : Nat
  content : List Char
  parent : Option Nat
  deriving DecidableEq, Repr

/-- Modelled from the spec: the Content Store state for one manuscript —
its append-only version list in creation order (oldest first), the
`currentVersionId` pointer, and a fresh-id counter. -/
structure ManuscriptState where
  versions : List Version
  current : Nat
  nextId : Nat
  deriving DecidableEq, Repr

/-- Look a version up by id. -/
def findVersion (m : ManuscriptState) (vid : Nat) : Option Version :=
  m.versions.find? (fun v => v.vid == vid)

/-- Content of the current version (`getCurrent`). -/
def getCurrentContent (m : ManuscriptState) : Option (List Char) :=
  (findVersion m m.current).map (·.content)

/-- `listHistory`: the version ids newest first. -/
def listHistory (m : ManuscriptState) : List Nat :=
  (m.versions.map (·.vid)).reverse

/-- Well-formedness of the store: every stored id is below the fresh-id
counter, ids are pairwise distinct, and the current pointer references a
stored version. -/
def WFStore (m : ManuscriptState) : Prop :=
  (∀ v ∈ m.versions, v.vid < m.nextId) ∧
    m.versions.Pairwise (fun v w => v.vid ≠ w.vid) ∧
    (∃ v ∈ m.versions, v.vid = m.current)

instance (m : ManuscriptState) : Decidable (WFStore m) := by
  unfold WFStore
  infer_instance

/-- Version-manager error taxonomy (the cases the modelled operations hit). -/
inductive VmError where
  | notFound
  | conflict
  | staleBase
  deriving DecidableEq, Repr

/-- Modelled from the spec: `revert(manuscriptId, targetVersionId)` — fails
with `NotFound` if the target does not belong to the manuscript; otherwise
appends a new `Version` whose content copies the target's content, with
`parent = current version at time of revert`, and advances the pointer to
it.  Returns the new state and the new version id. -/
def revert (m : ManuscriptState) (targetVersionId : Nat) :
    Except VmError (ManuscriptState × Nat) :=
  match findVersion m targetVersionId with
  | none => .error .notFound
  | some v =>
    let nv : Version := ⟨m.nextId, v.content, some m.current⟩
    .ok ({ versions := m.versions ++ [nv], current := nv.vid, nextId := m.nextId + 1 }, nv.vid)

/-- Modelled from the spec: an `EditSession`'s fields relevant to apply —
the base version id and the recorded target range. -/
structure EditSession where
  baseVersionId : Nat
  rangeStart : Nat
  rangeStop : Nat
  deriving DecidableEq, Repr

/-- Modelled from the spec: `applyEdit` — the Edit Session Manager
re-fetches the current content, re-validates
`content[targetRange.start:targetRange.end] == before` for the chosen
option (failing with `Conflict` on mismatch), then commits
`content[:start] + option.after + content[end:]` with
`expectedBaseVersionId = baseVersionId` (failing with `StaleBase` when the
base is no longer current). -/
def applyEdit (m : ManuscriptState) (s : EditSession) (opt : EditOptionF) :
    Except VmError (ManuscriptState × Nat) :=
  match getCurrentContent m with
  | none => .error .notFound
  | some content =>
    if slice content s.rangeStart s.rangeStop ≠ opt.before then .error .conflict
    else if s.baseVersionId ≠ m.current then .error .staleBase
    else
      let newContent := content.take s.rangeStart ++ opt.after ++ content.drop s.rangeStop
      let nv : Version := ⟨m.nextId, newContent, some s.baseVersionId⟩
      .ok ({ versions := m.versions ++ [nv], current := nv.vid, nextId := m.nextId + 1 }, nv.vid)

/-- The store state after an `applyEdit` attempt: the new state on success,
the unchanged input state on failure. -/
def applyEditState (m : ManuscriptState) (s : EditSession) (opt : EditOptionF) :
    ManuscriptState :=
  match applyEdit m s opt with
  | .ok (m', _) => m'
  | .error _ => m

/-! ## Supporting lemmas -/

/-- `strIndexOf` returns an index where the pattern occurs, and no smaller
index carries an occurrence: it is the first occurrence. -/
theorem strIndexOf_spec (pat : List Char) :
    ∀ (s : List Char) (i : Nat), strIndexOf pat s = some i →
      pat.isPrefixOf (s.drop i) = true ∧ ∀ j < i, pat.isPrefixOf (s.drop j) = false := by
  intro s
  induction s with
  | nil =>
    intro i h
    unfold strIndexOf at h
    split at h
    · rename_i hpat
      cases h
      subst hpat
      exact ⟨rfl, fun j hj => absurd hj (Nat.not_lt_zero j)⟩
    · cases h
  | cons c rest ih =>
    intro i h
    unfold strIndexOf at h
    split at h
    · rename_i hpre
      cases h
      exact ⟨hpre, fun j hj => absurd hj (Nat.not_lt_zero j)⟩
    · rename_i hpre
      cases hrec : strIndexOf pat rest with
      | none => rw [hrec] at h; cases h
      | some i' =>
        rw [hrec] at h
        simp only [Option.map_some'] at h
        cases h
        obtain ⟨h1, h2⟩ := ih i' hrec
        refine ⟨h1, ?_⟩
        intro j hj
        cases j with
        | zero => simpa using Bool.eq_false_iff.mpr hpre
        | succ j' =>
          have : j' < i' := by omega
          simpa using h2 j' this

/-- A nonempty occurrence at index `i` lies inside the string, and the exact
slice at `[i, i + |pat|)` recovers the pattern. -/
theorem prefix_drop_slice (pat s : List Char) (i : Nat)
    (hp : pat.isPrefixOf (s.drop i) = true) (hne : pat ≠ []) :
    i + pat.length ≤ s.length ∧ slice s i (i + pat.length) = pat := by
  rw [List.isPrefixOf_iff_prefix] at hp
  have hlen : pat.length ≤ s.length - i := by
    have h := hp.length_le
    simpa using h
  have hi : i ≤ s.length := by
    by_contra hcon
    push_neg at hcon
    have hdrop : s.drop i = [] := List.drop_eq_nil_of_le (le_of_lt hcon)
    rw [hdrop, List.prefix_nil] at hp
    exact hne hp
  refine ⟨by omega, ?_⟩
  unfold slice
  rw [List.drop_take]
  have heq : i + pat.length - i = pat.length := by omega
  rw [heq]
  exact (List.prefix_iff_eq_take.mp hp).symm

/-- With ordered indices, the JavaScript `substring` equals the exact slice. -/
theorem jsSubstring_eq_slice (s : List Char) (a b : Nat) (hab : a ≤ b) :
    jsSubstring s a b = slice s a b := by
  unfold jsSubstring slice
  rw [Nat.max_eq_right hab, Nat.min_eq_left hab]

/-- Every triple `handleMouseUp` hands to `onTextSelection` has a nonempty
in-bounds range. -/
theorem handleMouseUp_bounds (content selText : List Char) (startIndex : Nat) (s : SelectionR)
    (h : handleMouseUp content selText startIndex = some s) :
    s.start < s.stop ∧ s.stop ≤ content.length := by
  unfold handleMouseUp at h
  split at h
  · cases h
  · rename_i htrim
    split at h
    · rename_i hg
      cases h
      exact ⟨hg.2, hg.1⟩
    · cases hidx : strIndexOf (jsTrim selText) content with
      | none => rw [hidx] at h; cases h
      | some i =>
        rw [hidx] at h
        cases h
        have hne : jsTrim selText ≠ [] := by
          intro hh
          rw [hh] at htrim
          simp at htrim
        have hocc := (strIndexOf_spec _ _ _ hidx).1
        have hb := prefix_drop_slice _ _ _ hocc hne
        have hpos : 0 < (jsTrim selText).length := List.length_pos.mpr hne
        dsimp only
        exact ⟨by omega, hb.1⟩

/-- Same bounds for the search-only viewer variant. -/
theorem handleMouseUpSearch_bounds (content rawText : List Char) (s : SelectionR)
    (h : handleMouseUpSearch content rawText = some s) :
    s.start < s.stop ∧ s.stop ≤ content.length := by
  unfold handleMouseUpSearch at h
  split at h
  · cases h
  · rename_i htrim
    cases hidx : strIndexOf (jsTrim rawText) content with
    | none => simp only [hidx] at h; cases h
    | some i =>
      simp only [hidx] at h
      cases h
      have hne : jsTrim rawText ≠ [] := by
        intro hh
        rw [hh] at htrim
        simp at htrim
      have hocc := (strIndexOf_spec _ _ _ hidx).1
      have hb := prefix_drop_slice _ _ _ hocc hne
      have hpos : 0 < (jsTrim rawText).length := List.length_pos.mpr hne
      dsimp only
      exact ⟨by omega, hb.1⟩

/-! ## Claim theorems -/

/-- C3: every selection accepted and stored by the UI pipeline (either
viewer variant feeding `handleTextSelection`) satisfies
`0 ≤ start < end ≤ length(content)` (the lower bound is inherent to `Nat`)
and the content slice `content[start:end]` equals the stored text exactly. -/
theorem stored_selection_invariant (content selText : List Char) (startIndex : Nat)
    (s : SelectionR)
    (h : selectionPipeline content selText startIndex = some s ∨
      selectionPipelineSearch content selText = some s) :
    s.start < s.stop ∧ s.stop ≤ content.length ∧ slice content s.start s.stop = s.text := by
  have key : ∀ s0 : SelectionR, s0.stop ≤ content.length →
      handleTextSelection content s0.start s0.stop s0.text = some s →
      s.start < s.stop ∧ s.stop ≤ content.length ∧ slice content s.start s.stop = s.text := by
    intro s0 hle hts
    unfold handleTextSelection at hts
    split at hts
    · rename_i hcond
      split at hts
      · rename_i heq
        cases hts
        refine ⟨hcond.1, hle, ?_⟩
        rw [← jsSubstring_eq_slice content s0.start s0.stop (le_of_lt hcond.1)]
        exact heq
      · cases hts
    · cases hts
  cases h with
  | inl hp =>
    unfold selectionPipeline at hp
    cases hm : handleMouseUp content selText startIndex with
    | none => rw [hm] at hp; cases hp
    | some s0 =>
      rw [hm] at hp
      simp only [Option.some_bind] at hp
      exact key s0 (handleMouseUp_bounds _ _ _ _ hm).2 hp
  | inr hp =>
    unfold selectionPipelineSearch at hp
    cases hm : handleMouseUpSearch content selText with
    | none => rw [hm] at hp; cases hp
    | some s0 =>
      rw [hm] at hp
      simp only [Option.some_bind] at hp
      exact key s0 (handleMouseUpSearch_bounds _ _ _ hm).2 hp

/-- C3 witness: the invariant holds for the concrete stored selection
`(0, 5, "Hello")` on content `"Hello world"`. -/
theorem stored_selection_invariant_witness :
    (0 : Nat) < 5 ∧ 5 ≤ ("Hello world".data).length ∧
      slice "Hello world".data 0 5 = "Hello".data :=
  stored_selection_invariant "Hello world".data "Hello".data 0 ⟨0, 5, "Hello".data⟩
    (Or.inl (by decide))

/-- C4 counterexample: for content `" "` and offset pair `(0, 1, " ")` all
of the claim's premises hold (`0 ≤ 0 < 1 ≤ 1` and `content[0:1] = " "`),
yet the resolver rejects the triple instead of accepting it unchanged,
because the selected text trims to the empty string. -/
theorem offset_pair_whitespace_cex :
    (0 : Nat) < 1 ∧ 1 ≤ (" ".data : List Char).length ∧
      slice " ".data 0 1 = " ".data ∧
      handleMouseUp " ".data " ".data 0 = none ∧
      handleMouseUp " ".data " ".data 0 ≠ some ⟨0, 1, " ".data⟩ := by
  decide

/-- C4 (amended): whenever the reported text is not whitespace-only and the
offset pair satisfies `0 ≤ start < end ≤ length(content)` with
`content[start:end]` equal to the reported text, the resolver accepts the
triple directly and returns it unchanged, and the pipeline stores it. -/
theorem offset_pair_accepted (content text : List Char) (start stop : Nat)
    (htrim : jsTrim text ≠ [])
    (h1 : start < stop) (h2 : stop ≤ content.length)
    (h3 : slice content start stop = text) :
    handleMouseUp content text start = some ⟨start, stop, text⟩ ∧
      selectionPipeline content text start = some ⟨start, stop, text⟩ := by
  have hlen : text.length = stop - start := by
    rw [← h3]
    unfold slice
    rw [List.length_drop, List.length_take]
    omega
  have hstop : start + text.length = stop := by omega
  have htpos : 0 < text.length := by omega
  have hmu : handleMouseUp content text start = some ⟨start, stop, text⟩ := by
    unfold handleMouseUp
    rw [if_neg (by simpa [List.length_eq_zero] using htrim)]
    rw [if_pos (by omega)]
    rw [hstop]
  refine ⟨hmu, ?_⟩
  unfold selectionPipeline
  rw [hmu]
  simp only [Option.some_bind]
  unfold handleTextSelection
  have hcne : content ≠ [] := by
    have : 0 < content.length := by omega
    exact List.length_pos.mp this
  rw [if_pos ⟨h1, htpos, hcne⟩]
  rw [if_pos (by rw [jsSubstring_eq_slice content start stop (le_of_lt h1)]; exact h3)]

/-- C4 witness: content `"Hello world"` with reported pair `(0, 5, "Hello")`
is accepted directly and returned unchanged. -/
theorem offset_pair_accepted_witness :
    handleMouseUp "Hello world".data "Hello".data 0 = some ⟨0, 5, "Hello".data⟩ ∧
      selectionPipeline "Hello world".data "Hello".data 0 = some ⟨0, 5, "Hello".data⟩ :=
  offset_pair_accepted "Hello world".data "Hello".data 0 5 (by decide) (by decide)
    (by decide) (by decide)

/-- C5 counterexample: content `"x"`, raw selected text `" "` with the
out-of-bounds pair starting at `5`.  The pair is invalid and the trimmed
text (the empty string) occurs in the content at index `0`, so the claim
as stated demands acceptance of `(0, 0, "")`; the resolver instead
returns nothing, because the trimmed selection is empty. -/
theorem fallback_whitespace_cex :
    ("x".data : List Char).length < 5 + (" ".data : List Char).length ∧
      (jsTrim " ".data).isPrefixOf (("x".data : List Char).drop 0) = true ∧
      handleMouseUp "x".data " ".data 5 = none ∧
      handleMouseUp "x".data " ".data 5 ≠ some ⟨0, 0 + (jsTrim " ".data).length, jsTrim " ".data⟩ := by
  decide

/-- C5 (amended): when the offset pair is invalid (out of bounds) or absent
(the search-only variant), and the trimmed selected text is nonempty and
occurs in the content, both resolver variants accept the first occurrence
`(foundStart, foundStart + length(trimmedText), trimmedText)`, where
`foundStart` is the smallest index at which the trimmed text occurs. -/
theorem fallback_first_occurrence (content selText : List Char) (startIndex i : Nat)
    (htrim : jsTrim selText ≠ [])
    (hinvalid : content.length < startIndex + selText.length)
    (hfind : strIndexOf (jsTrim selText) content = some i) :
    handleMouseUp content selText startIndex =
      some ⟨i, i + (jsTrim selText).length, jsTrim selText⟩ ∧
    handleMouseUpSearch content selText =
      some ⟨i, i + (jsTrim selText).length, jsTrim selText⟩ ∧
    (jsTrim selText).isPrefixOf (content.drop i) = true ∧
    (∀ j < i, ¬ (jsTrim selText).isPrefixOf (content.drop j) = true) := by
  have hlen : ¬ (jsTrim selText).length = 0 := by
    simpa [List.length_eq_zero] using htrim
  obtain ⟨hocc, hmin⟩ := strIndexOf_spec _ _ _ hfind
  refine ⟨?_, ?_, hocc, ?_⟩
  · unfold handleMouseUp
    rw [if_neg hlen, if_neg (by omega), hfind]
  · unfold handleMouseUpSearch
    rw [if_neg hlen, hfind]
  · intro j hj hpre
    rw [hmin j hj] at hpre
    cases hpre

/-- C5 witness: content `"ab ab"`, raw text `" ab "` with out-of-bounds
start `99`: both variants resolve to the first of the two occurrences of
`"ab"`, namely `(0, 2, "ab")`, and index `0` is minimal. -/
theorem fallback_first_occurrence_witness :
    handleMouseUp "ab ab".data " ab ".data 99 =
      some ⟨0, 0 + (jsTrim " ab ".data).length, jsTrim " ab ".data⟩ ∧
    handleMouseUpSearch "ab ab".data " ab ".data =
      some ⟨0, 0 + (jsTrim " ab ".data).length, jsTrim " ab ".data⟩ ∧
    (jsTrim " ab ".data).isPrefixOf (("ab ab".data : List Char).drop 0) = true ∧
    (∀ j < 0, ¬ (jsTrim " ab ".data).isPrefixOf (("ab ab".data : List Char).drop j) = true) :=
  fallback_first_occurrence "ab ab".data " ab ".data 99 0 (by decide) (by decide) (by decide)

/-- C6 counterexample: at the specification's own example — content
`"Hello world"` with the stale pair `(0, 5, "Howdy")` — the resolver does
not fall back to a substring search at all: the pair passes the
bounds-only check and is forwarded, the downstream validator drops it with
only a console warning, and the composed resolution yields no stored
selection and no error value.  No `SelectionUnresolved` error is surfaced
to the caller; the failure is silent, contradicting the claim. -/
theorem unresolved_silent_cex :
    handleMouseUp "Hello world".data "Howdy".data 0 = some ⟨0, 5, "Howdy".data⟩ ∧
      strIndexOf (jsTrim "Howdy".data) "Hello world".data = none ∧
      selectionPipeline "Hello world".data "Howdy".data 0 = none ∧
      selectionPipelineSearch "Hello world".data "Howdy".data = none := by
  decide

/-- C6 (amended): when the supplied pair does not validate against the
canonical content (its substring differs from the reported text) and the
trimmed selected text occurs nowhere in the content, the resolution
pipeline completes with no stored selection and no surfaced error — it
silently does nothing (both viewer variants). -/
theorem unresolved_yields_none (content selText : List Char) (startIndex : Nat)
    (hmismatch : jsSubstring content startIndex (startIndex + selText.length) ≠ selText)
    (hnofind : strIndexOf (jsTrim selText) content = none) :
    selectionPipeline content selText startIndex = none ∧
      selectionPipelineSearch content selText = none := by
  have hts : handleTextSelection content startIndex (startIndex + selText.length) selText
      = none := by
    simp [handleTextSelection, hmismatch]
  constructor
  · unfold selectionPipeline handleMouseUp
    split
    · rfl
    · split
      · simp only [Option.some_bind]
        exact hts
      · rw [hnofind]
        rfl
  · unfold selectionPipelineSearch handleMouseUpSearch
    split
    · rfl
    · rw [hnofind]
      rfl

/-- C6 witness for the amended statement: the spec's example inputs. -/
theorem unresolved_yields_none_witness :
    selectionPipeline "Hello world".data "Howdy".data 0 = none ∧
      selectionPipelineSearch "Hello world".data "Howdy".data = none :=
  unresolved_yields_none "Hello world".data "Howdy".data 0 (by decide) (by decide)

/-- C7 counterexample: for the pair `("a b", "a c")` the code's diff is the
whole-string replacement `[delete "a b", insert "a c"]`, which touches 6
word-granularity tokens, while a longest-common-subsequence alignment over
the token sequences (`["a", " ", "b"]` vs `["a", " ", "c"]`, LCS length 2)
has minimal edit cost 2.  The code's diff is therefore not the
minimal-edit-distance hunk sequence the claim describes: `computeSimpleDiff`
performs no tokenization and no LCS alignment. -/
theorem diff_not_minimal_cex :
    hunkCost (hunksOf (computeSimpleDiff "a b".data "a c".data)) = 6 ∧
      minTokenCost "a b".data "a c".data = 2 ∧
      lcsLen (tokenize "a b".data) (tokenize "a c".data) = 2 ∧
      ¬ hunkCost (hunksOf (computeSimpleDiff "a b".data "a c".data)) =
          minTokenCost "a b".data "a c".data := by
  decide

/-- C7 (amended): the diff computation performs no word tokenization and no
LCS alignment; it is a deterministic whole-string diff — when the inputs
differ it yields exactly one delete hunk carrying all of `before` and one
insert hunk carrying all of `after`, and when they are equal it reports no
removed text and the unchanged text as added. -/
theorem diff_whole_string (b a : List Char) (h : b ≠ a) :
    hunksOf (computeSimpleDiff b a) = [⟨.delete, b⟩, ⟨.insert, a⟩] ∧
      computeSimpleDiff a a = ⟨[], a⟩ := by
  constructor
  · simp [computeSimpleDiff, hunksOf, h]
  · simp [computeSimpleDiff]

/-- C7 witness for the amended statement at `("a b", "a c")`. -/
theorem diff_whole_string_witness :
    hunksOf (computeSimpleDiff "a b".data "a c".data) =
        [⟨.delete, "a b".data⟩, ⟨.insert, "a c".data⟩] ∧
      computeSimpleDiff "a c".data "a c".data = ⟨[], "a c".data⟩ :=
  diff_whole_string "a b".data "a c".data (by decide)

/-- C8 counterexample: for the generated diff of the equal pair
`("x", "x")` the backward reconstruction (concatenating the text of all
`equal` and `delete` hunks) yields the empty string, not `before = "x"`:
the round-trip law fails for this generated diff, because the unchanged
text is reported in the added column with no equal hunk. -/
theorem roundtrip_equal_case_cex :
    applyBackward (hunksOf (computeSimpleDiff "x".data "x".data)) = [] ∧
      ¬ applyBackward (hunksOf (computeSimpleDiff "x".data "x".data)) = "x".data := by
  decide

/-- C8 (amended): the forward direction of the round-trip law holds for all
generated diffs — concatenating `equal` and `insert` hunks reconstructs
`after` — and the backward direction holds exactly when `before ≠ after`;
for equal nonempty inputs the backward reconstruction is empty. -/
theorem diff_roundtrip (b a : List Char) :
    applyForward (hunksOf (computeSimpleDiff b a)) = a ∧
      (b ≠ a → applyBackward (hunksOf (computeSimpleDiff b a)) = b) := by
  by_cases h : b = a
  · subst h
    constructor
    · simp [computeSimpleDiff, hunksOf, applyForward]
    · intro hc
      exact absurd rfl hc
  · constructor
    · simp [computeSimpleDiff, hunksOf, applyForward, h]
    · intro _
      simp [computeSimpleDiff, hunksOf, applyBackward, h]

/-- C8 witness: the full round trip at the changed pair `("x", "y")`. -/
theorem diff_roundtrip_witness :
    applyForward (hunksOf (computeSimpleDiff "x".data "y".data)) = "y".data ∧
      applyBackward (hunksOf (computeSimpleDiff "x".data "y".data)) = "x".data :=
  ⟨(diff_roundtrip "x".data "y".data).1,
    (diff_roundtrip "x".data "y".data).2 (by decide)⟩

/-- Invariant of the editor state: options are only present when a session
is live. -/
def optionsUnderSession (st : EditorState) : Prop :=
  st.editSessionId = none → st.editOptions = []

/-- `stepEditor` preserves `optionsUnderSession`. -/
theorem stepEditor_preserves (st : EditorState) (ev : EditorEvent)
    (h : optionsUnderSession st) : optionsUnderSession (stepEditor st ev) := by
  cases ev with
  | textSelection content start stop text =>
    simp only [stepEditor]
    cases hts : handleTextSelection content start stop text with
    | none => exact h
    | some s => intro _; rfl
  | suggestSuccess sid opts =>
    intro hc
    simp only [stepEditor] at hc
    exact Option.noConfusion hc
  | suggestError => exact h
  | applySuccess => intro _; rfl
  | applyError => exact h

/-- `optionsUnderSession` holds along any run of the editor. -/
theorem runEditor_inv (evs : List EditorEvent) :
    optionsUnderSession (runEditor evs) := by
  have gen : ∀ (l : List EditorEvent) (st : EditorState), optionsUnderSession st →
      optionsUnderSession (l.foldl stepEditor st) := by
    intro l
    induction l with
    | nil => intro st h; exact h
    | cons e t ih =>
      intro st h
      exact ih _ (stepEditor_preserves st e h)
  exact gen evs initialEditorState (fun _ => rfl)

/-- C9: the editor keeps at most one live edit session (a single optional
session id): an accepted selection discards the live session and its
options; a newly created session replaces the previous session id and
option set wholesale; a successful apply terminates the session and clears
its options and the selection; and in every reachable state, options are
present only under the live session, so options from a superseded session
are never applicable afterwards. -/
theorem single_live_session (evs : List EditorEvent) (st : EditorState)
    (content : List Char) (start stop : Nat) (text : List Char)
    (sid : Nat) (opts : List EditOptionF) (s : SelectionR)
    (hacc : handleTextSelection content start stop text = some s) :
    (stepEditor st (.textSelection content start stop text)).editSessionId = none ∧
    (stepEditor st (.textSelection content start stop text)).editOptions = [] ∧
    (stepEditor st (.suggestSuccess sid opts)).editSessionId = some sid ∧
    (stepEditor st (.suggestSuccess sid opts)).editOptions = opts ∧
    (stepEditor st .applySuccess).editSessionId = none ∧
    (stepEditor st .applySuccess).editOptions = [] ∧
    (stepEditor st .applySuccess).selection = none ∧
    ((runEditor evs).editSessionId = none → (runEditor evs).editOptions = []) := by
  refine ⟨?_, ?_, rfl, rfl, rfl, rfl, rfl, runEditor_inv evs⟩
  · simp only [stepEditor]
    rw [hacc]
  · simp only [stepEditor]
    rw [hacc]

/-- C9 witness: concrete run (one suggest success) and a concrete accepted
selection `(0, 1, "a")` on content `"ab"`. -/
theorem single_live_session_witness :
    (stepEditor initialEditorState (.textSelection "ab".data 0 1 "a".data)).editSessionId
        = none ∧
    (stepEditor initialEditorState (.textSelection "ab".data 0 1 "a".data)).editOptions = [] ∧
    (stepEditor initialEditorState (.suggestSuccess 7 [])).editSessionId = some 7 ∧
    (stepEditor initialEditorState (.suggestSuccess 7 [])).editOptions = [] ∧
    (stepEditor initialEditorState .applySuccess).editSessionId = none ∧
    (stepEditor initialEditorState .applySuccess).editOptions = [] ∧
    (stepEditor initialEditorState .applySuccess).selection = none ∧
    ((runEditor [.suggestSuccess 1 []]).editSessionId = none →
      (runEditor [.suggestSuccess 1 []]).editOptions = []) :=
  single_live_session [.suggestSuccess 1 []] initialEditorState "ab".data 0 1 "a".data 7 []
    ⟨0, 1, "a".data⟩ (by decide)

/-- C10 counterexample: with a two-entry history but the confirmation dialog
declined, `handleUndo` issues no revert at all, contradicting the claim
that at least two entries always lead to exactly one revert targeting the
second entry. -/
theorem undo_cancel_cex :
    2 ≤ ([⟨0⟩, ⟨1⟩] : List HistEntry).length ∧
      handleUndo [⟨0⟩, ⟨1⟩] false = none ∧
      handleUndo [⟨0⟩, ⟨1⟩] false ≠ some 1 := by
  decide

/-- C10 (amended): if the newest-first history has fewer than two entries,
no revert is issued regardless of confirmation; with at least two entries
and a confirmed dialog, exactly one revert is issued and its target is the
second entry (the version immediately preceding the current one); with the
dialog declined, no revert is issued. -/
theorem undo_targets_previous (versions : List HistEntry) (confirmed : Bool)
    (v0 v1 : HistEntry) (rest : List HistEntry) :
    (versions.length < 2 → handleUndo versions confirmed = none) ∧
      (versions = v0 :: v1 :: rest → handleUndo versions true = some v1.vid) ∧
      handleUndo versions false = none := by
  refine ⟨?_, ?_, ?_⟩
  · intro h
    unfold handleUndo
    rw [if_pos h]
  · intro h
    subst h
    unfold handleUndo
    rw [if_neg (by simp)]
    rfl
  · unfold handleUndo
    split
    · rfl
    · cases versions with
      | nil => rfl
      | cons a t =>
        cases t with
        | nil => rfl
        | cons b t2 => rfl

/-- C10 witness: a two-entry history `[v0, v1]` — confirmed undo reverts to
`v1`, declined undo does nothing, and a one-entry history is a no-op. -/
theorem undo_targets_previous_witness :
    handleUndo [⟨0⟩, ⟨1⟩] true = some 1 ∧
      handleUndo [⟨0⟩, ⟨1⟩] false = none ∧
      handleUndo [⟨5⟩] true = none :=
  ⟨(undo_targets_previous [⟨0⟩, ⟨1⟩] true ⟨0⟩ ⟨1⟩ []).2.1 rfl,
    (undo_targets_previous [⟨0⟩, ⟨1⟩] false ⟨0⟩ ⟨1⟩ []).2.2,
    (undo_targets_previous [⟨5⟩] true ⟨0⟩ ⟨1⟩ []).1 (by decide)⟩

/-- With pairwise-distinct ids, looking a member's id up returns exactly
that member. -/
theorem find_mem_of_pairwise (l : List Version) (v : Version)
    (hp : l.Pairwise (fun a b => a.vid ≠ b.vid)) (hv : v ∈ l) :
    l.find? (fun w => w.vid == v.vid) = some v := by
  induction l with
  | nil => cases hv
  | cons h t ih =>
    obtain ⟨hph, hpt⟩ := List.pairwise_cons.mp hp
    rcases List.mem_cons.mp hv with rfl | hvt
    · simp [List.find?]
    · have hfalse : (h.vid == v.vid) = false := beq_eq_false_iff_ne.mpr (hph v hvt)
      rw [List.find?_cons, hfalse]
      exact ih hpt hvt

/-- Appending a version with a strictly larger id than every stored one:
looking the fresh id up finds the appended version. -/
theorem find_append_fresh (l : List Version) (i : Nat) (c : List Char) (p : Option Nat)
    (hlt : ∀ v ∈ l, v.vid < i) :
    (l ++ [Version.mk i c p]).find? (fun w => w.vid == i) = some (Version.mk i c p) := by
  rw [List.find?_append]
  have h1 : l.find? (fun w => w.vid == i) = none := by
    rw [List.find?_eq_none]
    intro v hv
    simp only [beq_iff_eq]
    exact Nat.ne_of_lt (hlt v hv)
  rw [h1]
  simp [List.find?]

/-- C1: for a well-formed store and any version `v` belonging to the
manuscript, `revert` succeeds and appends one new version: the current
content afterwards equals `v`'s content, the newest-first history gains
exactly one new entry at its head, and the previously stored versions are
untouched (the old list is preserved as a prefix; nothing is mutated or
deleted). -/
theorem revert_appends_and_restores (m : ManuscriptState) (v : Version)
    (hwf : WFStore m) (hv : v ∈ m.versions) :
    ∃ m' nid, revert m v.vid = .ok (m', nid) ∧
      getCurrentContent m' = some v.content ∧
      listHistory m' = nid :: listHistory m ∧
      m'.versions = m.versions ++ [⟨m.nextId, v.content, some m.current⟩] ∧
      m'.current = nid ∧
      (listHistory m').length = (listHistory m).length + 1 := by
  obtain ⟨hbound, hdist, -⟩ := hwf
  have hfind : findVersion m v.vid = some v := find_mem_of_pairwise _ _ hdist hv
  refine ⟨ManuscriptState.mk (m.versions ++ [Version.mk m.nextId v.content (some m.current)])
      m.nextId (m.nextId + 1), m.nextId, ?_, ?_, ?_, rfl, rfl, ?_⟩
  · unfold revert
    rw [hfind]
  · unfold getCurrentContent findVersion
    simp only
    rw [find_append_fresh m.versions m.nextId v.content (some m.current) hbound]
    rfl
  · unfold listHistory
    simp
  · unfold listHistory
    simp

/-- C1 witness: a two-version store; reverting to the first version appends
a third whose content copies it and leaves both old entries in place. -/
theorem revert_appends_and_restores_witness :
    ∃ m' nid,
      revert ⟨[⟨0, "abc".data, none⟩, ⟨1, "xyz".data, some 0⟩], 1, 2⟩ 0 = .ok (m', nid) ∧
      getCurrentContent m' = some ("abc".data) ∧
      listHistory m' = nid :: listHistory ⟨[⟨0, "abc".data, none⟩, ⟨1, "xyz".data, some 0⟩], 1, 2⟩ ∧
      m'.versions = [⟨0, "abc".data, none⟩, ⟨1, "xyz".data, some 0⟩] ++ [⟨2, "abc".data, some 1⟩] ∧
      m'.current = nid ∧
      (listHistory m').length =
        (listHistory ⟨[⟨0, "abc".data, none⟩, ⟨1, "xyz".data, some 0⟩], 1, 2⟩).length + 1 :=
  revert_appends_and_restores ⟨[⟨0, "abc".data, none⟩, ⟨1, "xyz".data, some 0⟩], 1, 2⟩
    ⟨0, "abc".data, none⟩ (by decide) (by decide)

/-- C2: if at apply time the current content's slice at the session's
recorded target range no longer equals the chosen option's `before` text,
`applyEdit` fails with `Conflict` and the store is left unchanged: no new
version is created and the current pointer does not move. -/
theorem apply_conflict_leaves_state (m : ManuscriptState) (s : EditSession)
    (opt : EditOptionF) (content : List Char)
    (hc : getCurrentContent m = some content)
    (hmis : slice content s.rangeStart s.rangeStop ≠ opt.before) :
    applyEdit m s opt = .error .conflict ∧ applyEditState m s opt = m := by
  have happ : applyEdit m s opt = .error .conflict := by
    unfold applyEdit
    rw [hc]
    simp only
    rw [if_pos hmis]
  refine ⟨happ, ?_⟩
  unfold applyEditState
  rw [happ]

/-- C2 witness: current content `"A cat sat."`, recorded range `[2, 5)`, and
an option whose `before` is the stale `"dog"`: apply fails with `Conflict`
and the store is unchanged. -/
theorem apply_conflict_leaves_state_witness :
    applyEdit ⟨[⟨0, "A cat sat.".data, none⟩], 0, 1⟩ ⟨0, 2, 5⟩ ⟨0, "dog".data, "feline".data⟩
        = .error .conflict ∧
      applyEditState ⟨[⟨0, "A cat sat.".data, none⟩], 0, 1⟩ ⟨0, 2, 5⟩
          ⟨0, "dog".data, "feline".data⟩
        = ⟨[⟨0, "A cat sat.".data, none⟩], 0, 1⟩ :=
  apply_conflict_leaves_state ⟨[⟨0, "A cat sat.".data, none⟩], 0, 1⟩ ⟨0, 2, 5⟩
    ⟨0, "dog".data, "feline".data⟩ ("A cat sat.".data) (by decide) (by decide)

end BookEditor
